import Mathlib

/-!
Verification of the CalculusKit numerical approximation engine.

The repository ships only tests, examples and demo scripts; the engine
itself (Derivative, Integral, DoubleIntegral, Limit, TaylorSeries,
MaclaurinSeries, FourierSeries, PartialDerivative) is not present, so the
definitions below are modelled from the specification's formulas and
contracts.  Machine floating point is modelled by exact arithmetic: ℚ for
the polynomial/derivative/integral/limit/series claims and ℝ where
transcendental functions (sine, cosine, π) are involved.
-/

namespace CalculusKit

/-- Modelled from the spec: the finite-difference method enumeration of the
missing `Derivative` class (`forward`/`backward`/`central`). -/
inductive DiffMethod
  | forward
  | backward
  | central
deriving DecidableEq

/-- Modelled from the spec: the default step size h ≈ 1e-5 of the missing
`Derivative` class. -/
def defaultH : ℚ := 1 / 100000

/-- Modelled from the spec: `Derivative.at` of the missing `Derivative`
class — forward `(f(x+h) − f(x)) / h`, backward `(f(x) − f(x−h)) / h`,
central `(f(x+h) − f(x−h)) / (2h)`. -/
def derivativeAt (m : DiffMethod) (f : ℚ → ℚ) (h x : ℚ) : ℚ :=
  match m with
  | .forward => (f (x + h) - f x) / h
  | .backward => (f x - f (x - h)) / h
  | .central => (f (x + h) - f (x - h)) / (2 * h)

/-- A degree ≤ 3 polynomial a0 + a1·x + a2·x² + a3·x³. -/
def cubicEval (a0 a1 a2 a3 x : ℚ) : ℚ := a0 + a1 * x + a2 * x ^ 2 + a3 * x ^ 3

/-- The analytic derivative of `cubicEval`. -/
def cubicDeriv (_a0 a1 a2 a3 x : ℚ) : ℚ := a1 + 2 * a2 * x + 3 * a3 * x ^ 2

/-- Modelled from the spec: the quadrature method enumeration of the missing
`Integral` class (`trapezoidal`/`simpson`/`midpoint`). -/
inductive IntMethod
  | trapezoidal
  | simpson
  | midpoint
deriving DecidableEq

/-- Modelled from the spec: the trapezoidal rule of the missing `Integral`
class, `Δx * (f(x0)/2 + f(x1) + … + f(xn-1) + f(xn)/2)` with
`Δx = (b−a)/n`. -/
def trapezoidalRule {α : Type} [Field α] (f : α → α) (n : ℕ) (a b : α) : α :=
  (b - a) / n * (f a / 2
    + (∑ i in Finset.range (n - 1), f (a + ((i : α) + 1) * ((b - a) / n))) + f b / 2)

/-- Modelled from the spec: the Simpson weighted sum on an even subdivision
count m, `Δx/3 * (f(x0) + 4·Σf(odd) + 2·Σf(even interior) + f(xm))`. -/
def simpsonEven {α : Type} [Field α] (f : α → α) (m : ℕ) (a b : α) : α :=
  (b - a) / m / 3 * (f a
    + 4 * (∑ j in Finset.range (m / 2), f (a + (2 * (j : α) + 1) * ((b - a) / m)))
    + 2 * (∑ j in Finset.range (m / 2 - 1), f (a + (2 * (j : α) + 2) * ((b - a) / m)))
    + f b)

/-- Modelled from the spec: Simpson's rule of the missing `Integral` class —
if n is odd it is incremented by 1 first, then the even weighted sum is
taken. -/
def simpsonRule {α : Type} [Field α] (f : α → α) (n : ℕ) (a b : α) : α :=
  simpsonEven f (if n % 2 = 1 then n + 1 else n) a b

/-- Modelled from the spec: the midpoint rule of the missing `Integral`
class, `Δx * Σ f(xi + Δx/2)` over the n subintervals. -/
def midpointRule {α : Type} [Field α] (f : α → α) (n : ℕ) (a b : α) : α :=
  (b - a) / n * ∑ i in Finset.range n, f (a + (i : α) * ((b - a) / n) + ((b - a) / n) / 2)

/-- Modelled from the spec: `Integral.between(a, b)` of the missing
`Integral` class, dispatching on the configured quadrature method. -/
def integralBetween {α : Type} [Field α] (m : IntMethod) (f : α → α) (n : ℕ) (a b : α) : α :=
  match m with
  | .trapezoidal => trapezoidalRule f n a b
  | .simpson => simpsonRule f n a b
  | .midpoint => midpointRule f n a b

/-- Modelled from the spec: the geometrically shrinking probe offsets
10⁻¹ … 10⁻⁸ of the missing `Limit` class.  A possibly-failing target
function is `ℚ → Option ℚ`, `none` standing for a raised exception or a
non-finite value at that probe. -/
def probeOffsets : List ℚ := (List.range 8).map (fun k => (1 / 10 : ℚ) ^ (k + 1))

/-- Modelled from the spec: `Limit.left(x0)` — probe f at x0 − δ for the
shrinking offsets δ, skip the probes where f is undefined, and report the
value at the smallest successful offset (the stabilized value); `none`
when every probe fails. -/
def leftLimit (f : ℚ → Option ℚ) (x0 : ℚ) : Option ℚ :=
  (probeOffsets.filterMap (fun d => f (x0 - d))).getLast?

/-- Modelled from the spec: `Limit.right(x0)`, the positive-offset variant
of `leftLimit`. -/
def rightLimit (f : ℚ → Option ℚ) (x0 : ℚ) : Option ℚ :=
  (probeOffsets.filterMap (fun d => f (x0 + d))).getLast?

/-- Modelled from the spec: the default tolerance ε of the missing `Limit`
class. -/
def defaultEps : ℚ := 1 / 1000000

/-- Modelled from the spec: `Limit.at(x0)` — combine the two one-sided
estimates; a per-probe failure is skipped, and non-existence (`none`) is
reported only when no probe on either side yields a finite value. -/
def limitAt (f : ℚ → Option ℚ) (x0 : ℚ) : Option ℚ :=
  match leftLimit f x0, rightLimit f x0 with
  | some l, some r => some ((l + r) / 2)
  | some l, none => some l
  | none, some r => some r
  | none, none => none

/-- Modelled from the spec: `Limit.exists(x0)` — true iff both one-sided
limits are finite and agree within the tolerance ε. -/
def limitExistsAt (f : ℚ → Option ℚ) (x0 : ℚ) : Bool :=
  match leftLimit f x0, rightLimit f x0 with
  | some l, some r => decide (|l - r| < defaultEps)
  | _, _ => false

/-- The jump step function used by the tests: 0 below 1, 1 from 1 on. -/
def stepFun : ℚ → Option ℚ := fun x => if x < 1 then some 0 else some 1

/-- The removable-singularity rational function (x² − 4)/(x − 2) from the
tests, which raises (is undefined) at exactly x = 2. -/
def ratRemovable : ℚ → Option ℚ :=
  fun x => if x = 2 then none else some ((x ^ 2 - 4) / (x - 2))

/-- Modelled from the spec: the k-fold composition of the central-difference
rule, the kth-derivative estimate used by the missing `TaylorSeries`
class. -/
def iterDeriv (f : ℚ → ℚ) (h : ℚ) : ℕ → ℚ → ℚ
  | 0 => f
  | k + 1 => fun x => (iterDeriv f h k (x + h) - iterDeriv f h k (x - h)) / (2 * h)

/-- Modelled from the spec: the kth Taylor coefficient f⁽ᵏ⁾(center)/k!,
with the kth derivative estimated by `iterDeriv` at the default step. -/
def taylorCoeff (f : ℚ → ℚ) (k : ℕ) (c : ℚ) : ℚ :=
  iterDeriv f defaultH k c / (Nat.factorial k : ℚ)

/-- Modelled from the spec: `TaylorSeries.coefficients(center)`, the ordered
sequence of the n coefficients. -/
def taylorCoefficients (f : ℚ → ℚ) (n : ℕ) (c : ℚ) : List ℚ :=
  (List.range n).map (fun k => taylorCoeff f k c)

/-- Modelled from the spec: `TaylorSeries.at(x, center)`, the truncated
polynomial Σ cₖ·(x − center)ᵏ over the n terms. -/
def taylorAt (f : ℚ → ℚ) (n : ℕ) (x c : ℚ) : ℚ :=
  ∑ k in Finset.range n, taylorCoeff f k c * (x - c) ^ k

/-- Modelled from the spec: `TaylorSeries.error_estimate(x, center)`, the
magnitude of the last included term. -/
def taylorErrorEstimate (f : ℚ → ℚ) (n : ℕ) (x c : ℚ) : ℚ :=
  |taylorCoeff f (n - 1) c * (x - c) ^ (n - 1)|

/-- Modelled from the spec: the Maclaurin coefficient, written out with the
center 0 inlined so that agreement with `taylorCoeff` is provable. -/
def maclaurinCoeff (f : ℚ → ℚ) (k : ℕ) : ℚ :=
  iterDeriv f defaultH k 0 / (Nat.factorial k : ℚ)

/-- Modelled from the spec: `MaclaurinSeries.coefficients()`. -/
def maclaurinCoefficients (f : ℚ → ℚ) (n : ℕ) : List ℚ :=
  (List.range n).map (fun k => maclaurinCoeff f k)

/-- Modelled from the spec: `MaclaurinSeries.at(x)`, the truncated
polynomial Σ cₖ·xᵏ. -/
def maclaurinAt (f : ℚ → ℚ) (n : ℕ) (x : ℚ) : ℚ :=
  ∑ k in Finset.range n, maclaurinCoeff f k * x ^ k

/-- Modelled from the spec: `MaclaurinSeries.error_estimate(x)`. -/
def maclaurinErrorEstimate (f : ℚ → ℚ) (n : ℕ) (x : ℚ) : ℚ :=
  |maclaurinCoeff f (n - 1) * x ^ (n - 1)|

/-- Modelled from the spec: the error taxonomy; only the configuration
variant arises at construction time. -/
inductive CalcError
  | configurationError
  | evaluationError
deriving DecidableEq

/-- Modelled from the spec: the immutable configuration of the missing
`Derivative` class. -/
structure Derivative where
  f : ℚ → ℚ
  method : DiffMethod
  h : ℚ

/-- Modelled from the spec: `Derivative` construction rejects a non-positive
step size with a ConfigurationError, before any query runs. -/
def mkDerivative (f : ℚ → ℚ) (m : DiffMethod) (h : ℚ) : Except CalcError Derivative :=
  if h ≤ 0 then .error .configurationError else .ok ⟨f, m, h⟩

/-- Modelled from the spec: the configuration of the missing
`PartialDerivative` class. -/
structure PartialDerivative where
  f : List ℚ → ℚ
  h : ℚ

/-- Modelled from the spec: `PartialDerivative` construction rejects a
non-positive step size at construction time. -/
def mkPartialDerivative (f : List ℚ → ℚ) (h : ℚ) : Except CalcError PartialDerivative :=
  if h ≤ 0 then .error .configurationError else .ok ⟨f, h⟩

/-- Modelled from the spec: the configuration of the missing `Integral`
class. -/
structure Integral where
  f : ℚ → ℚ
  method : IntMethod
  n : ℕ

/-- Modelled from the spec: `Integral` construction rejects a non-positive
subdivision count at construction time. -/
def mkIntegral (f : ℚ → ℚ) (m : IntMethod) (n : ℤ) : Except CalcError Integral :=
  if n ≤ 0 then .error .configurationError else .ok ⟨f, m, n.toNat⟩

/-- Modelled from the spec: the configuration of the missing
`DoubleIntegral` class. -/
structure DoubleIntegral where
  f : ℚ → ℚ → ℚ
  method : IntMethod
  n : ℕ

/-- Modelled from the spec: `DoubleIntegral` construction rejects a
non-positive subdivision count at construction time. -/
def mkDoubleIntegral (f : ℚ → ℚ → ℚ) (m : IntMethod) (n : ℤ) :
    Except CalcError DoubleIntegral :=
  if n ≤ 0 then .error .configurationError else .ok ⟨f, m, n.toNat⟩

/-- Modelled from the spec: the configuration of the missing `FourierSeries`
class. -/
structure FourierSeries where
  f : ℝ → ℝ
  period : ℝ
  harmonics : ℕ

/-- Modelled from the spec: `FourierSeries` construction rejects a
non-positive period at construction time. -/
noncomputable def mkFourierSeries (f : ℝ → ℝ) (T : ℝ) (n : ℕ) :
    Except CalcError FourierSeries :=
  if T ≤ 0 then .error .configurationError else .ok ⟨f, T, n⟩

/-- Modelled from the spec: the subdivision count of the Integral engine as
used by FourierSeries (default trapezoidal quadrature, 1000
subdivisions). -/
def defaultN : ℕ := 1000

/-- Modelled from the spec: `FourierSeries.a0()` = (1/T)·∫₀ᵀ f(x)dx, the
mean value, computed by the Integral engine's quadrature. -/
noncomputable def fourierA0 (f : ℝ → ℝ) (T : ℝ) : ℝ :=
  (1 / T) * integralBetween .trapezoidal f defaultN 0 T

/-- Modelled from the spec: `FourierSeries.an(k)` =
(2/T)·∫₀ᵀ f(x)·cos(2πkx/T)dx via the Integral engine. -/
noncomputable def fourierAn (f : ℝ → ℝ) (T : ℝ) (k : ℕ) : ℝ :=
  (2 / T) * integralBetween .trapezoidal
    (fun x => f x * Real.cos (2 * Real.pi * k * x / T)) defaultN 0 T

/-- Modelled from the spec: `FourierSeries.bn(k)` =
(2/T)·∫₀ᵀ f(x)·sin(2πkx/T)dx via the Integral engine. -/
noncomputable def fourierBn (f : ℝ → ℝ) (T : ℝ) (k : ℕ) : ℝ :=
  (2 / T) * integralBetween .trapezoidal
    (fun x => f x * Real.sin (2 * Real.pi * k * x / T)) defaultN 0 T

end CalculusKit

namespace CalculusKit

/-- The central rule applied to a cubic polynomial is exact up to the
`a3·h²` truncation term. -/
lemma central_cubic_exact (a0 a1 a2 a3 x h : ℚ) (hh : h ≠ 0) :
    derivativeAt .central (cubicEval a0 a1 a2 a3) h x
      = cubicDeriv a0 a1 a2 a3 x + a3 * h ^ 2 := by
  simp only [derivativeAt, cubicEval, cubicDeriv]
  field_simp
  ring

/-- C1: with the default central method and step h = 1e-5, the derivative
estimate of a degree ≤ 3 polynomial differs from the analytic derivative by
exactly `a3·h²`, hence is within 1e-4 whenever the cubic coefficient
satisfies |a3| ≤ 10⁶ (amended bound; the accuracy claim fails for larger
cubic coefficients); in particular the derivative of x² at 3 is exactly 6,
and the central rule is `(f(x+h) − f(x−h))/(2h)`. -/
theorem central_cubic_accuracy :
    (∀ a0 a1 a2 a3 x : ℚ, |a3| ≤ 10 ^ 6 →
        |derivativeAt .central (cubicEval a0 a1 a2 a3) defaultH x
          - cubicDeriv a0 a1 a2 a3 x| ≤ 1 / 10 ^ 4)
    ∧ derivativeAt .central (fun t => t ^ 2) defaultH 3 = 6
    ∧ (∀ (f : ℚ → ℚ) (h x : ℚ), derivativeAt .central f h x
        = (f (x + h) - f (x - h)) / (2 * h)) := by
  refine ⟨fun a0 a1 a2 a3 x ha3 => ?_, by norm_num [derivativeAt, defaultH], fun f h x => rfl⟩
  rw [central_cubic_exact a0 a1 a2 a3 x defaultH (by norm_num [defaultH])]
  have hstep : |defaultH ^ 2| = 1 / 10 ^ 10 := by
    rw [abs_of_nonneg (by positivity)]
    norm_num [defaultH]
  calc |cubicDeriv a0 a1 a2 a3 x + a3 * defaultH ^ 2 - cubicDeriv a0 a1 a2 a3 x|
      = |a3| * |defaultH ^ 2| := by rw [← abs_mul]; ring_nf
    _ ≤ 10 ^ 6 * (1 / 10 ^ 10) := by rw [hstep]; gcongr
    _ ≤ 1 / 10 ^ 4 := by norm_num

/-- Witness for C1: the cubic x³ (a3 = 1) at x = 0 satisfies the bound. -/
theorem central_cubic_accuracy_witness :
    |(1 : ℚ)| ≤ 10 ^ 6
    ∧ |derivativeAt .central (cubicEval 0 0 0 1) defaultH 0
        - cubicDeriv 0 0 0 1 0| ≤ 1 / 10 ^ 4 :=
  ⟨by norm_num, central_cubic_accuracy.1 0 0 0 1 0 (by norm_num)⟩

/-- Counterexample for C1 as frozen: for the cubic 10⁷·x³ the central
estimate at 0 with the default step is 10⁻³, a full 10⁻³ away from the
analytic derivative 0, violating the 1e-4 tolerance. -/
theorem central_cubic_counterexample :
    ¬ |derivativeAt .central (cubicEval 0 0 0 (10 ^ 7)) defaultH 0
        - cubicDeriv 0 0 0 (10 ^ 7) 0| ≤ 1 / 10 ^ 4 := by
  have h1 : derivativeAt .central (cubicEval 0 0 0 (10 ^ 7)) defaultH 0
      - cubicDeriv 0 0 0 (10 ^ 7) 0 = 1 / 1000 := by
    norm_num [derivativeAt, cubicEval, cubicDeriv, defaultH]
  rw [h1, abs_of_nonneg (by norm_num)]
  norm_num

/-- Swapping the bounds negates the trapezoidal sum: the sample set is
reversed while Δx changes sign. -/
lemma trapezoidal_swap (f : ℚ → ℚ) (n : ℕ) (a b : ℚ) :
    trapezoidalRule f n b a = -trapezoidalRule f n a b := by
  rcases Nat.eq_zero_or_pos n with h0 | hpos
  · subst h0
    simp [trapezoidalRule]
  · have hn : (n : ℚ) ≠ 0 := Nat.cast_ne_zero.2 hpos.ne'
    simp only [trapezoidalRule]
    have hdx : (a - b) / (n : ℚ) = -((b - a) / (n : ℚ)) := by ring
    rw [hdx]
    set dx := (b - a) / (n : ℚ) with hdxdef
    have hab : a + (n : ℚ) * dx = b := by
      rw [hdxdef]
      field_simp
    have hsum : ∑ i in Finset.range (n - 1), f (b + ((i : ℚ) + 1) * -dx)
        = ∑ i in Finset.range (n - 1), f (a + ((i : ℚ) + 1) * dx) := by
      calc ∑ i in Finset.range (n - 1), f (b + ((i : ℚ) + 1) * -dx)
          = ∑ j in Finset.range (n - 1),
              (fun i : ℕ => f (a + ((i : ℚ) + 1) * dx)) (n - 1 - 1 - j) := by
            refine Finset.sum_congr rfl fun j hj => ?_
            have hj1 : j < n - 1 := Finset.mem_range.1 hj
            simp only
            congr 1
            have hc : ((n - 1 - 1 - j : ℕ) : ℚ) = (n : ℚ) - 2 - (j : ℚ) := by
              have he : n - 1 - 1 - j = n - (2 + j) := by omega
              rw [he, Nat.cast_sub (by omega)]
              push_cast
              ring
            rw [hc, ← hab]
            ring
        _ = ∑ j in Finset.range (n - 1), f (a + ((j : ℚ) + 1) * dx) :=
            Finset.sum_range_reflect (fun i => f (a + ((i : ℚ) + 1) * dx)) (n - 1)
    rw [hsum]
    ring

/-- Swapping the bounds negates the midpoint sum. -/
lemma midpoint_swap (f : ℚ → ℚ) (n : ℕ) (a b : ℚ) :
    midpointRule f n b a = -midpointRule f n a b := by
  rcases Nat.eq_zero_or_pos n with h0 | hpos
  · subst h0
    simp [midpointRule]
  · have hn : (n : ℚ) ≠ 0 := Nat.cast_ne_zero.2 hpos.ne'
    simp only [midpointRule]
    have hdx : (a - b) / (n : ℚ) = -((b - a) / (n : ℚ)) := by ring
    rw [hdx]
    set dx := (b - a) / (n : ℚ) with hdxdef
    have hab : a + (n : ℚ) * dx = b := by
      rw [hdxdef]
      field_simp
    have hsum : ∑ i in Finset.range n, f (b + (i : ℚ) * -dx + -dx / 2)
        = ∑ i in Finset.range n, f (a + (i : ℚ) * dx + dx / 2) := by
      calc ∑ i in Finset.range n, f (b + (i : ℚ) * -dx + -dx / 2)
          = ∑ j in Finset.range n,
              (fun i : ℕ => f (a + (i : ℚ) * dx + dx / 2)) (n - 1 - j) := by
            refine Finset.sum_congr rfl fun j hj => ?_
            have hj1 : j < n := Finset.mem_range.1 hj
            simp only
            congr 1
            have hc : ((n - 1 - j : ℕ) : ℚ) = (n : ℚ) - 1 - (j : ℚ) := by
              have he : n - 1 - j = n - (1 + j) := by omega
              rw [he, Nat.cast_sub (by omega)]
              push_cast
              ring
            rw [hc, ← hab]
            ring
        _ = ∑ j in Finset.range n, f (a + (j : ℚ) * dx + dx / 2) :=
            Finset.sum_range_reflect (fun i => f (a + (i : ℚ) * dx + dx / 2)) n
    rw [hsum]
    ring

/-- Swapping the bounds negates the Simpson weighted sum on any even count. -/
lemma simpsonEven_swap (f : ℚ → ℚ) (m : ℕ) (hm : m % 2 = 0) (a b : ℚ) :
    simpsonEven f m b a = -simpsonEven f m a b := by
  rcases Nat.eq_zero_or_pos m with h0 | hpos
  · subst h0
    simp [simpsonEven]
  · have hn : (m : ℚ) ≠ 0 := Nat.cast_ne_zero.2 hpos.ne'
    have hp2 : m / 2 * 2 = m := Nat.div_mul_cancel (Nat.dvd_of_mod_eq_zero hm)
    simp only [simpsonEven]
    have hdx : (a - b) / (m : ℚ) = -((b - a) / (m : ℚ)) := by ring
    rw [hdx]
    set dx := (b - a) / (m : ℚ) with hdxdef
    have hab : a + (m : ℚ) * dx = b := by
      rw [hdxdef]
      field_simp
    have hmq : (m : ℚ) = 2 * ((m / 2 : ℕ) : ℚ) := by
      exact_mod_cast congrArg (fun k : ℕ => (k : ℚ)) (by omega : m = 2 * (m / 2))
    have hodds : ∑ j in Finset.range (m / 2), f (b + (2 * (j : ℚ) + 1) * -dx)
        = ∑ j in Finset.range (m / 2), f (a + (2 * (j : ℚ) + 1) * dx) := by
      calc ∑ j in Finset.range (m / 2), f (b + (2 * (j : ℚ) + 1) * -dx)
          = ∑ j in Finset.range (m / 2),
              (fun i : ℕ => f (a + (2 * (i : ℚ) + 1) * dx)) (m / 2 - 1 - j) := by
            refine Finset.sum_congr rfl fun j hj => ?_
            have hj1 : j < m / 2 := Finset.mem_range.1 hj
            simp only
            congr 1
            have hc : ((m / 2 - 1 - j : ℕ) : ℚ) = ((m / 2 : ℕ) : ℚ) - 1 - (j : ℚ) := by
              have he : m / 2 - 1 - j = m / 2 - (1 + j) := by omega
              rw [he, Nat.cast_sub (by omega)]
              push_cast
              ring
            rw [hc, ← hab, hmq]
            ring
        _ = ∑ j in Finset.range (m / 2), f (a + (2 * (j : ℚ) + 1) * dx) :=
            Finset.sum_range_reflect (fun i => f (a + (2 * (i : ℚ) + 1) * dx)) (m / 2)
    have hevens : ∑ j in Finset.range (m / 2 - 1), f (b + (2 * (j : ℚ) + 2) * -dx)
        = ∑ j in Finset.range (m / 2 - 1), f (a + (2 * (j : ℚ) + 2) * dx) := by
      calc ∑ j in Finset.range (m / 2 - 1), f (b + (2 * (j : ℚ) + 2) * -dx)
          = ∑ j in Finset.range (m / 2 - 1),
              (fun i : ℕ => f (a + (2 * (i : ℚ) + 2) * dx)) (m / 2 - 1 - 1 - j) := by
            refine Finset.sum_congr rfl fun j hj => ?_
            have hj1 : j < m / 2 - 1 := Finset.mem_range.1 hj
            simp only
            congr 1
            have hc : ((m / 2 - 1 - 1 - j : ℕ) : ℚ) = ((m / 2 : ℕ) : ℚ) - 2 - (j : ℚ) := by
              have he : m / 2 - 1 - 1 - j = m / 2 - (2 + j) := by omega
              rw [he, Nat.cast_sub (by omega)]
              push_cast
              ring
            rw [hc, ← hab, hmq]
            ring
        _ = ∑ j in Finset.range (m / 2 - 1), f (a + (2 * (j : ℚ) + 2) * dx) :=
            Finset.sum_range_reflect (fun i => f (a + (2 * (i : ℚ) + 2) * dx)) (m / 2 - 1)
    rw [hodds, hevens]
    ring

/-- The Simpson dispatch always runs on an even count. -/
lemma simpson_count_even (n : ℕ) : (if n % 2 = 1 then n + 1 else n) % 2 = 0 := by
  split <;> omega

/-- C2: for each of the three quadrature methods, `between(a, b)` is the
negation of `between(b, a)`, and in particular `between(a, a)` is exactly
0. -/
theorem integral_orientation_antisymmetry :
    ∀ (m : IntMethod) (f : ℚ → ℚ) (n : ℕ) (a b : ℚ),
      integralBetween m f n a b = -integralBetween m f n b a
      ∧ integralBetween m f n a a = 0 := by
  have hswap : ∀ (m : IntMethod) (f : ℚ → ℚ) (n : ℕ) (a b : ℚ),
      integralBetween m f n a b = -integralBetween m f n b a := by
    intro m f n a b
    cases m with
    | trapezoidal => exact trapezoidal_swap f n b a
    | simpson =>
        simp only [integralBetween, simpsonRule]
        exact simpsonEven_swap f _ (simpson_count_even n) b a
    | midpoint => exact midpoint_swap f n b a
  intro m f n a b
  refine ⟨hswap m f n a b, ?_⟩
  have h := hswap m f n a a
  linarith

/-- C8: when Simpson's rule is selected with an odd subdivision count n, the
integral equals the one computed with n + 1 subdivisions, and on the even
count n + 1 it is the weighted sum
`Δx/3 * (f(x0) + 4·Σf(odd) + 2·Σf(even interior) + f(xn))`. -/
theorem simpson_odd_n_adjustment :
    ∀ (f : ℚ → ℚ) (n : ℕ) (a b : ℚ), n % 2 = 1 →
      integralBetween .simpson f n a b = integralBetween .simpson f (n + 1) a b
      ∧ integralBetween .simpson f (n + 1) a b
          = (b - a) / ((n : ℚ) + 1) / 3 * (f a
            + 4 * ∑ j in Finset.range ((n + 1) / 2),
                f (a + (2 * (j : ℚ) + 1) * ((b - a) / ((n : ℚ) + 1)))
            + 2 * ∑ j in Finset.range ((n + 1) / 2 - 1),
                f (a + (2 * (j : ℚ) + 2) * ((b - a) / ((n : ℚ) + 1)))
            + f b) := by
  intro f n a b hodd
  have hev : ¬ (n + 1) % 2 = 1 := by omega
  constructor
  · simp only [integralBetween, simpsonRule, if_pos hodd, if_neg hev]
  · simp only [integralBetween, simpsonRule, if_neg hev, simpsonEven, Nat.cast_add,
      Nat.cast_one]

/-- Witness for C8: instantiated at f = id, n = 1, over [0, 1]. -/
theorem simpson_odd_n_adjustment_witness :
    1 % 2 = 1
    ∧ integralBetween IntMethod.simpson (fun x : ℚ => x) 1 0 1
        = integralBetween IntMethod.simpson (fun x : ℚ => x) 2 0 1 :=
  ⟨rfl, (simpson_odd_n_adjustment (fun x => x) 1 0 1 rfl).1⟩

/-- The probe offsets written out. -/
lemma probeOffsets_eq :
    probeOffsets = [1/10, 1/100, 1/1000, 1/10000, 1/100000, 1/1000000,
      1/10000000, 1/100000000] := by
  norm_num [probeOffsets, List.range_succ]

/-- Left probe of the step function at its jump. -/
lemma leftLimit_step : leftLimit stepFun 1 = some 0 := by
  norm_num [leftLimit, probeOffsets_eq, stepFun, List.filterMap, List.getLast?]

/-- Right probe of the step function at its jump. -/
lemma rightLimit_step : rightLimit stepFun 1 = some 1 := by
  norm_num [rightLimit, probeOffsets_eq, stepFun, List.filterMap, List.getLast?]

/-- Left probe of x² at 2. -/
lemma leftLimit_sq :
    leftLimit (fun x => some (x ^ 2)) 2 = some (39999999600000001/10000000000000000) := by
  norm_num [leftLimit, probeOffsets_eq, List.filterMap, List.getLast?]

/-- Right probe of x² at 2. -/
lemma rightLimit_sq :
    rightLimit (fun x => some (x ^ 2)) 2 = some (40000000400000001/10000000000000000) := by
  norm_num [rightLimit, probeOffsets_eq, List.filterMap, List.getLast?]

/-- C3: `exists(x0)` is true exactly when both one-sided limits are finite
and differ by less than the tolerance; in particular it is false at the
jump of the step function and true for the continuous x² at 2. -/
theorem limit_exists_iff_one_sided :
    (∀ (f : ℚ → Option ℚ) (x0 : ℚ), limitExistsAt f x0 = true ↔
        ∃ l r, leftLimit f x0 = some l ∧ rightLimit f x0 = some r ∧ |l - r| < defaultEps)
    ∧ limitExistsAt stepFun 1 = false
    ∧ limitExistsAt (fun x => some (x ^ 2)) 2 = true := by
  refine ⟨fun f x0 => ?_, ?_, ?_⟩
  · cases hL : leftLimit f x0 with
    | none => simp [limitExistsAt, hL]
    | some l =>
      cases hR : rightLimit f x0 with
      | none => simp [limitExistsAt, hL, hR]
      | some r => simp [limitExistsAt, hL, hR]
  · rw [limitExistsAt, leftLimit_step, rightLimit_step]
    norm_num [defaultEps]
  · rw [limitExistsAt, leftLimit_sq, rightLimit_sq]
    have habs : |(39999999600000001 : ℚ)/10000000000000000
        - 40000000400000001/10000000000000000| = 8/100000000 := by
      rw [abs_of_nonpos (by norm_num)]
      norm_num
    simp only [decide_eq_true_eq]
    rw [habs]
    norm_num [defaultEps]

/-- Left probe of the removable-singularity rational function at 2. -/
lemma leftLimit_rat : leftLimit ratRemovable 2 = some (399999999/100000000) := by
  norm_num [leftLimit, probeOffsets_eq, ratRemovable, List.filterMap, List.getLast?]

/-- Right probe of the removable-singularity rational function at 2. -/
lemma rightLimit_rat : rightLimit ratRemovable 2 = some (400000001/100000000) := by
  norm_num [rightLimit, probeOffsets_eq, ratRemovable, List.filterMap, List.getLast?]

/-- C4: `at(x0)` reports non-existence exactly when every probe on both
sides fails, so a per-probe failure is absorbed rather than fatal; for
(x² − 4)/(x − 2), which is undefined at x = 2 itself, the limit at 2 is
returned (exactly 4, hence within 1e-4 of 4) instead of propagating the
failure. -/
theorem limit_probe_failure_tolerance :
    (∀ (f : ℚ → Option ℚ) (x0 : ℚ), limitAt f x0 = none ↔
        (∀ d ∈ probeOffsets, f (x0 - d) = none) ∧ (∀ d ∈ probeOffsets, f (x0 + d) = none))
    ∧ ratRemovable 2 = none
    ∧ (∃ v, limitAt ratRemovable 2 = some v ∧ |v - 4| < 1 / 10000) := by
  refine ⟨fun f x0 => ?_, by norm_num [ratRemovable], ?_⟩
  · have hL : leftLimit f x0 = none ↔ ∀ d ∈ probeOffsets, f (x0 - d) = none := by
      rw [leftLimit, List.getLast?_eq_none_iff, List.filterMap_eq_nil_iff]
    have hR : rightLimit f x0 = none ↔ ∀ d ∈ probeOffsets, f (x0 + d) = none := by
      rw [rightLimit, List.getLast?_eq_none_iff, List.filterMap_eq_nil_iff]
    rw [← hL, ← hR]
    cases hL2 : leftLimit f x0 with
    | none =>
      cases hR2 : rightLimit f x0 with
      | none => simp [limitAt, hL2, hR2]
      | some r => simp [limitAt, hL2, hR2]
    | some l =>
      cases hR2 : rightLimit f x0 with
      | none => simp [limitAt, hL2, hR2]
      | some r => simp [limitAt, hL2, hR2]
  · refine ⟨4, ?_, by norm_num⟩
    rw [limitAt, leftLimit_rat, rightLimit_rat]
    norm_num

/-- C5: evaluating the truncated Taylor series at its own center leaves
only the zeroth coefficient, which is exactly the function value at the
center. -/
theorem taylor_at_center (f : ℚ → ℚ) (n : ℕ) (c : ℚ) (hn : 1 ≤ n) :
    taylorAt f n c c = f c := by
  unfold taylorAt
  rw [Finset.sum_eq_single 0]
  · simp [taylorCoeff, iterDeriv, Nat.factorial]
  · intro k _ hk0
    simp [sub_self, zero_pow hk0]
  · intro h0
    exact absurd (Finset.mem_range.2 hn) h0

/-- Witness for C5: the series of t + 1 with one term at center 0. -/
theorem taylor_at_center_witness :
    1 ≤ 1 ∧ taylorAt (fun t => t + 1) 1 0 0 = 1 :=
  ⟨le_refl 1, by
    have h := taylor_at_center (fun t => t + 1) 1 0 (le_refl 1)
    simpa using h⟩

/-- C6: MaclaurinSeries agrees with TaylorSeries at center 0, both on the
evaluated truncated polynomial and on the coefficient sequence. -/
theorem maclaurin_is_taylor_at_zero :
    ∀ (f : ℚ → ℚ) (n : ℕ) (x : ℚ),
      maclaurinAt f n x = taylorAt f n x 0
      ∧ maclaurinCoefficients f n = taylorCoefficients f n 0 := by
  intro f n x
  constructor
  · unfold maclaurinAt taylorAt maclaurinCoeff taylorCoeff
    simp [sub_zero]
  · rfl

/-- C10: the error estimate (the magnitude of the last included term) is
nonnegative for both TaylorSeries and MaclaurinSeries. -/
theorem error_estimate_nonneg :
    ∀ (f : ℚ → ℚ) (n : ℕ) (x c : ℚ), 1 ≤ n →
      0 ≤ taylorErrorEstimate f n x c ∧ 0 ≤ maclaurinErrorEstimate f n x := by
  intro f n x c _
  exact ⟨abs_nonneg _, abs_nonneg _⟩

/-- Witness for C10: two-term series of the identity evaluated at 1. -/
theorem error_estimate_nonneg_witness :
    1 ≤ 2 ∧ 0 ≤ taylorErrorEstimate (fun t => t) 2 1 0
    ∧ 0 ≤ maclaurinErrorEstimate (fun t => t) 2 1 :=
  ⟨by norm_num, (error_estimate_nonneg (fun t => t) 2 1 0 (by norm_num)).1,
    (error_estimate_nonneg (fun t => t) 2 1 0 (by norm_num)).2⟩

/-- C9: each evaluator constructor returns a ConfigurationError exactly
when its numeric parameter is invalid — non-positive step size for
Derivative/PartialDerivative, non-positive subdivision count for
Integral/DoubleIntegral, non-positive period for FourierSeries — so the
rejection happens at construction, not at the first query. -/
theorem configuration_rejected_at_construction :
    (∀ (f : ℚ → ℚ) (m : DiffMethod) (h : ℚ),
        mkDerivative f m h = .error .configurationError ↔ h ≤ 0)
    ∧ (∀ (f : List ℚ → ℚ) (h : ℚ),
        mkPartialDerivative f h = .error .configurationError ↔ h ≤ 0)
    ∧ (∀ (f : ℚ → ℚ) (m : IntMethod) (n : ℤ),
        mkIntegral f m n = .error .configurationError ↔ n ≤ 0)
    ∧ (∀ (f : ℚ → ℚ → ℚ) (m : IntMethod) (n : ℤ),
        mkDoubleIntegral f m n = .error .configurationError ↔ n ≤ 0)
    ∧ (∀ (f : ℝ → ℝ) (T : ℝ) (n : ℕ),
        mkFourierSeries f T n = .error .configurationError ↔ T ≤ 0) := by
  refine ⟨fun f m h => ?_, fun f h => ?_, fun f m n => ?_, fun f m n => ?_, fun f T n => ?_⟩
  · rw [mkDerivative]
    split_ifs with hc <;> simp [hc]
  · rw [mkPartialDerivative]
    split_ifs with hc <;> simp [hc]
  · rw [mkIntegral]
    split_ifs with hc <;> simp [hc]
  · rw [mkDoubleIntegral]
    split_ifs with hc <;> simp [hc]
  · rw [mkFourierSeries]
    split_ifs with hc <;> simp [hc]

/-- Geometric sum of the Nth roots of unity sampled with integer frequency
m: N when N divides m, 0 otherwise. -/
lemma exp_unit_sum (N : ℕ) (hN : 0 < N) (m : ℤ) :
    ∑ i in Finset.range N, Complex.exp (((2 * Real.pi * m / N : ℝ) : ℂ) * Complex.I) ^ i
      = if (N:ℤ) ∣ m then (N:ℂ) else 0 := by
  have hNneC : (N:ℂ) ≠ 0 := Nat.cast_ne_zero.2 hN.ne'
  by_cases hdvd : (N:ℤ) ∣ m
  · obtain ⟨j, hj⟩ := hdvd
    have hz : Complex.exp (((2 * Real.pi * m / N : ℝ) : ℂ) * Complex.I) = 1 := by
      have harg : ((2 * Real.pi * m / N : ℝ) : ℂ) * Complex.I
          = (j : ℤ) * (2 * (Real.pi : ℂ) * Complex.I) := by
        push_cast [hj]
        field_simp
        ring
      rw [harg]
      exact Complex.exp_int_mul_two_pi_mul_I j
    rw [hz]
    have hd : (N:ℤ) ∣ m := ⟨j, hj⟩
    simp [hd]
  · have hzne : Complex.exp (((2 * Real.pi * m / N : ℝ) : ℂ) * Complex.I) ≠ 1 := by
      intro h1
      rw [Complex.exp_eq_one_iff] at h1
      obtain ⟨k, hk⟩ := h1
      apply hdvd
      have hIne : (Complex.I : ℂ) ≠ 0 := Complex.I_ne_zero
      have hr : ((2 * Real.pi * m / N : ℝ) : ℂ) = k * (2 * (Real.pi : ℂ)) := by
        have h2 : ((2 * Real.pi * m / N : ℝ) : ℂ) * Complex.I
            = (k * (2 * (Real.pi : ℂ))) * Complex.I := by
          rw [hk]
          ring
        exact mul_right_cancel₀ hIne h2
      have hrr : (2 * Real.pi * m / N : ℝ) = k * (2 * Real.pi) := by
        exact_mod_cast hr
      have hπ : Real.pi ≠ 0 := Real.pi_ne_zero
      have hNneR : (N:ℝ) ≠ 0 := Nat.cast_ne_zero.2 hN.ne'
      have hm : (m:ℝ) = k * N := by
        field_simp at hrr
        nlinarith [hrr, Real.pi_pos]
      have hmz : m = k * N := by exact_mod_cast hm
      exact ⟨k, by linarith [hmz]⟩
    rw [geom_sum_eq hzne]
    have hzN : Complex.exp (((2 * Real.pi * m / N : ℝ) : ℂ) * Complex.I) ^ N = 1 := by
      rw [← Complex.exp_nat_mul]
      have harg : (N:ℂ) * (((2 * Real.pi * m / N : ℝ) : ℂ) * Complex.I)
          = (m : ℤ) * (2 * (Real.pi : ℂ) * Complex.I) := by
        push_cast
        field_simp
        ring
      rw [harg]
      exact Complex.exp_int_mul_two_pi_mul_I m
    rw [hzN]
    simp [if_neg hdvd]

/-- Discrete orthogonality, cosine part: the cosine samples over one period
sum to N when N divides the frequency and to 0 otherwise. -/
lemma cos_probe_sum (N : ℕ) (hN : 0 < N) (m : ℤ) :
    ∑ i in Finset.range N, Real.cos (2 * Real.pi * m * i / N)
      = if (N:ℤ) ∣ m then (N:ℝ) else 0 := by
  have h1 : ∀ i : ℕ, Real.cos (2 * Real.pi * m * i / N)
      = (Complex.exp (((2 * Real.pi * m / N : ℝ) : ℂ) * Complex.I) ^ i).re := by
    intro i
    rw [← Complex.exp_nat_mul]
    have harg : (i:ℂ) * (((2 * Real.pi * m / N : ℝ) : ℂ) * Complex.I)
        = ((2 * Real.pi * m * i / N : ℝ) : ℂ) * Complex.I := by
      push_cast
      ring
    rw [harg, Complex.exp_ofReal_mul_I_re]
  have h2 : ∑ i in Finset.range N, Real.cos (2 * Real.pi * m * i / N)
      = ∑ i in Finset.range N,
          (Complex.exp (((2 * Real.pi * m / N : ℝ) : ℂ) * Complex.I) ^ i).re :=
    Finset.sum_congr rfl (fun i _ => h1 i)
  rw [h2, ← Complex.re_sum, exp_unit_sum N hN m]
  split <;> simp

/-- Discrete orthogonality, sine part: the sine samples over one period
always sum to 0. -/
lemma sin_probe_sum (N : ℕ) (hN : 0 < N) (m : ℤ) :
    ∑ i in Finset.range N, Real.sin (2 * Real.pi * m * i / N) = 0 := by
  have h1 : ∀ i : ℕ, Real.sin (2 * Real.pi * m * i / N)
      = (Complex.exp (((2 * Real.pi * m / N : ℝ) : ℂ) * Complex.I) ^ i).im := by
    intro i
    rw [← Complex.exp_nat_mul]
    have harg : (i:ℂ) * (((2 * Real.pi * m / N : ℝ) : ℂ) * Complex.I)
        = ((2 * Real.pi * m * i / N : ℝ) : ℂ) * Complex.I := by
      push_cast
      ring
    rw [harg, Complex.exp_ofReal_mul_I_im]
  have h2 : ∑ i in Finset.range N, Real.sin (2 * Real.pi * m * i / N)
      = ∑ i in Finset.range N,
          (Complex.exp (((2 * Real.pi * m / N : ℝ) : ℂ) * Complex.I) ^ i).im :=
    Finset.sum_congr rfl (fun i _ => h1 i)
  rw [h2, ← Complex.im_sum, exp_unit_sum N hN m]
  split <;> simp

/-- For an integrand vanishing at both endpoints the trapezoidal rule over
[0, T] collapses to Δx times the plain sample sum. -/
lemma trapezoid_zero_ends (g : ℝ → ℝ) (N : ℕ) (hN : 0 < N) (T : ℝ)
    (hg0 : g 0 = 0) (hgT : g T = 0) :
    trapezoidalRule g N 0 T = (T / N) * ∑ i in Finset.range N, g (i * (T / N)) := by
  simp only [trapezoidalRule, sub_zero, zero_add]
  rw [hg0, hgT]
  obtain ⟨M, rfl⟩ : ∃ M, N = M + 1 := ⟨N - 1, by omega⟩
  rw [Finset.sum_range_succ' (fun i : ℕ => g ((i:ℝ) * (T / (M+1:ℕ)))) M]
  have hc : ∀ i : ℕ,
      g (((i+1:ℕ):ℝ) * (T / ((M+1:ℕ):ℝ))) = g (((i:ℝ) + 1) * (T / ((M+1:ℕ):ℝ))) := by
    intro i
    congr 1
    push_cast
    ring
  rw [Finset.sum_congr rfl (fun i _ => hc i)]
  have h0 : g (((0:ℕ):ℝ) * (T / ((M+1:ℕ):ℝ))) = 0 := by
    norm_num [hg0]
  rw [h0]
  push_cast
  ring

/-- Product-to-sum identity for two sines. -/
lemma sinProd (a b : ℝ) :
    Real.sin a * Real.sin b = (Real.cos (a - b) - Real.cos (a + b)) / 2 := by
  rw [Real.cos_sub, Real.cos_add]
  ring

/-- Product-to-sum identity for a sine and a cosine. -/
lemma sinCos (a b : ℝ) :
    Real.sin a * Real.cos b = (Real.sin (a + b) + Real.sin (a - b)) / 2 := by
  rw [Real.sin_add, Real.sin_sub]
  ring

/-- Closed form of the quadrature-computed bn coefficient of sin over one
period: the 1000-point discrete orthogonality sums, exhibiting both the
exact values and the aliasing at frequencies congruent to ±1 mod 1000. -/
lemma fourierBn_sin_formula (k : ℕ) :
    fourierBn Real.sin (2 * Real.pi) k
      = ((if (1000:ℤ) ∣ (1 - (k:ℤ)) then (1000:ℝ) else 0)
        - (if (1000:ℤ) ∣ (1 + (k:ℤ)) then (1000:ℝ) else 0)) / 1000 := by
  have hπ : Real.pi ≠ 0 := Real.pi_ne_zero
  have hfun : (fun x => Real.sin x * Real.sin (2 * Real.pi * (k:ℝ) * x / (2 * Real.pi)))
      = fun x => Real.sin x * Real.sin ((k:ℝ) * x) := by
    funext x
    congr 1
    congr 1
    field_simp
    ring
  rw [fourierBn]
  simp only [integralBetween]
  rw [hfun]
  rw [trapezoid_zero_ends _ defaultN (by norm_num [defaultN]) _ (by simp)
    (by simp [Real.sin_two_pi])]
  have hterm : ∀ i : ℕ,
      Real.sin ((i:ℝ) * (2 * Real.pi / ((defaultN:ℕ):ℝ)))
        * Real.sin ((k:ℝ) * ((i:ℝ) * (2 * Real.pi / ((defaultN:ℕ):ℝ))))
      = (Real.cos (2 * Real.pi * ((1 - (k:ℤ) : ℤ) : ℝ) * (i:ℝ) / ((defaultN:ℕ):ℝ))
        - Real.cos (2 * Real.pi * ((1 + (k:ℤ) : ℤ) : ℝ) * (i:ℝ) / ((defaultN:ℕ):ℝ))) / 2 := by
    intro i
    have e1 : (i:ℝ) * (2 * Real.pi / ((defaultN:ℕ):ℝ))
        - (k:ℝ) * ((i:ℝ) * (2 * Real.pi / ((defaultN:ℕ):ℝ)))
        = 2 * Real.pi * ((1 - (k:ℤ) : ℤ) : ℝ) * (i:ℝ) / ((defaultN:ℕ):ℝ) := by
      push_cast
      ring
    have e2 : (i:ℝ) * (2 * Real.pi / ((defaultN:ℕ):ℝ))
        + (k:ℝ) * ((i:ℝ) * (2 * Real.pi / ((defaultN:ℕ):ℝ)))
        = 2 * Real.pi * ((1 + (k:ℤ) : ℤ) : ℝ) * (i:ℝ) / ((defaultN:ℕ):ℝ) := by
      push_cast
      ring
    rw [sinProd, e1, e2]
  rw [Finset.sum_congr rfl (fun i _ => hterm i)]
  rw [← Finset.sum_div, Finset.sum_sub_distrib]
  rw [cos_probe_sum defaultN (by norm_num [defaultN]) (1 - (k:ℤ)),
    cos_probe_sum defaultN (by norm_num [defaultN]) (1 + (k:ℤ))]
  rw [show ((defaultN:ℕ):ℝ) = 1000 by norm_num [defaultN],
    show ((defaultN:ℕ):ℤ) = 1000 by norm_num [defaultN]]
  field_simp
  ring

/-- The quadrature-computed an coefficients of sin over one period all
vanish: the sine orthogonality sums are identically zero. -/
lemma fourierAn_sin_zero (k : ℕ) : fourierAn Real.sin (2 * Real.pi) k = 0 := by
  have hfun : (fun x => Real.sin x * Real.cos (2 * Real.pi * (k:ℝ) * x / (2 * Real.pi)))
      = fun x => Real.sin x * Real.cos ((k:ℝ) * x) := by
    funext x
    congr 1
    congr 1
    field_simp
    ring
  rw [fourierAn]
  simp only [integralBetween]
  rw [hfun]
  rw [trapezoid_zero_ends _ defaultN (by norm_num [defaultN]) _ (by simp)
    (by simp [Real.sin_two_pi])]
  have hterm : ∀ i : ℕ,
      Real.sin ((i:ℝ) * (2 * Real.pi / ((defaultN:ℕ):ℝ)))
        * Real.cos ((k:ℝ) * ((i:ℝ) * (2 * Real.pi / ((defaultN:ℕ):ℝ))))
      = (Real.sin (2 * Real.pi * ((1 + (k:ℤ) : ℤ) : ℝ) * (i:ℝ) / ((defaultN:ℕ):ℝ))
        + Real.sin (2 * Real.pi * ((1 - (k:ℤ) : ℤ) : ℝ) * (i:ℝ) / ((defaultN:ℕ):ℝ))) / 2 := by
    intro i
    have e1 : (i:ℝ) * (2 * Real.pi / ((defaultN:ℕ):ℝ))
        + (k:ℝ) * ((i:ℝ) * (2 * Real.pi / ((defaultN:ℕ):ℝ)))
        = 2 * Real.pi * ((1 + (k:ℤ) : ℤ) : ℝ) * (i:ℝ) / ((defaultN:ℕ):ℝ) := by
      push_cast
      ring
    have e2 : (i:ℝ) * (2 * Real.pi / ((defaultN:ℕ):ℝ))
        - (k:ℝ) * ((i:ℝ) * (2 * Real.pi / ((defaultN:ℕ):ℝ)))
        = 2 * Real.pi * ((1 - (k:ℤ) : ℤ) : ℝ) * (i:ℝ) / ((defaultN:ℕ):ℝ) := by
      push_cast
      ring
    rw [sinCos, e1, e2]
  rw [Finset.sum_congr rfl (fun i _ => hterm i)]
  rw [← Finset.sum_div, Finset.sum_add_distrib]
  rw [sin_probe_sum defaultN (by norm_num [defaultN]) (1 + (k:ℤ)),
    sin_probe_sum defaultN (by norm_num [defaultN]) (1 - (k:ℤ))]
  norm_num

/-- The quadrature-computed mean value a0 of sin over one period vanishes. -/
lemma fourierA0_sin_zero : fourierA0 Real.sin (2 * Real.pi) = 0 := by
  rw [fourierA0]
  simp only [integralBetween]
  rw [trapezoid_zero_ends _ defaultN (by norm_num [defaultN]) _ Real.sin_zero
    Real.sin_two_pi]
  have hterm : ∀ i : ℕ,
      Real.sin ((i:ℝ) * (2 * Real.pi / ((defaultN:ℕ):ℝ)))
      = Real.sin (2 * Real.pi * ((1 : ℤ) : ℝ) * (i:ℝ) / ((defaultN:ℕ):ℝ)) := by
    intro i
    congr 1
    push_cast
    ring
  rw [Finset.sum_congr rfl (fun i _ => hterm i)]
  rw [sin_probe_sum defaultN (by norm_num [defaultN]) 1]
  norm_num

/-- C7 (amended): for f = sin over period 2π the Integral-engine quadrature
reproduces the analytic coefficients exactly for harmonics below the
quadrature resolution: a0 = 0, an(k) = 0 for every k, bn(1) = 1, and
bn(k) = 0 for k ≠ 1 with k + 1 below the subdivision count; at harmonics
near the subdivision count the discrete sums alias and the claim fails. -/
theorem fourier_sin_coefficients :
    fourierA0 Real.sin (2 * Real.pi) = 0
    ∧ (∀ k : ℕ, fourierAn Real.sin (2 * Real.pi) k = 0)
    ∧ fourierBn Real.sin (2 * Real.pi) 1 = 1
    ∧ (∀ k : ℕ, 1 ≤ k → k ≠ 1 → k + 1 < defaultN →
        fourierBn Real.sin (2 * Real.pi) k = 0) := by
  refine ⟨fourierA0_sin_zero, fourierAn_sin_zero, ?_, ?_⟩
  · rw [fourierBn_sin_formula 1]
    norm_num
  · intro k hk1 hkne hklt
    have hklt2 : k + 1 < 1000 := hklt
    have hk2 : 2 ≤ k := by omega
    rw [fourierBn_sin_formula k]
    have h1 : ¬ (1000:ℤ) ∣ (1 - (k:ℤ)) := by
      intro hd
      rw [show (1:ℤ) - (k:ℤ) = -((k:ℤ) - 1) by ring, dvd_neg] at hd
      have hle := Int.le_of_dvd (by omega) hd
      omega
    have h2 : ¬ (1000:ℤ) ∣ (1 + (k:ℤ)) := by
      intro hd
      have hle := Int.le_of_dvd (by omega) hd
      omega
    rw [if_neg h1, if_neg h2]
    norm_num

/-- Witness for C7: the harmonic k = 2 vanishes. -/
theorem fourier_sin_coefficients_witness :
    1 ≤ 2 ∧ (2:ℕ) ≠ 1 ∧ 2 + 1 < defaultN
    ∧ fourierBn Real.sin (2 * Real.pi) 2 = 0 :=
  ⟨by norm_num, by norm_num, by norm_num [defaultN],
    fourier_sin_coefficients.2.2.2 2 (by norm_num) (by norm_num) (by norm_num [defaultN])⟩

/-- Counterexample for C7 as frozen: at the aliased harmonic k = 999 ≠ 1
the quadrature-computed bn is −1, not approximately 0. -/
theorem fourier_sin_alias_counterexample :
    (999 : ℕ) ≠ 1 ∧ fourierBn Real.sin (2 * Real.pi) 999 = -1 := by
  refine ⟨by norm_num, ?_⟩
  rw [fourierBn_sin_formula 999]
  norm_num

end CalculusKit
